import Mathlib

/-!
Verification development for `apps/web/fix_html_entities.py`, a one-off
maintenance script that replaces five HTML entity escapes with their literal
characters across a fixed list of files.

File contents are modelled as `List Char`.  Python's `str.replace(old, new)`
with a non-empty `old` replaces the leftmost occurrences, non-overlapping,
scanning left to right; `replaceAll` below implements exactly that scan
(the five patterns used by the script are all non-empty, so Python's special
behaviour for an empty pattern never arises and is not modelled).
The scan is written with an explicit fuel argument equal to the length of the
remaining input so that it is structurally recursive and evaluates by `decide`.
-/

def replaceAllGo (pat rep : List Char) : Nat → List Char → List Char
  | _, [] => []
  | 0, s => s
  | fuel+1, c :: cs =>
    if pat.isPrefixOf (c :: cs) ∧ pat ≠ [] then
      rep ++ replaceAllGo pat rep fuel (List.drop pat.length (c :: cs))
    else
      c :: replaceAllGo pat rep fuel cs

/-- Python `s.replace(pat, rep)` for a non-empty `pat`: replace every leftmost
non-overlapping occurrence of `pat` in `s` by `rep`, left to right. -/
def replaceAll (pat rep s : List Char) : List Char :=
  replaceAllGo pat rep s.length s

/-- The entity `&apos;` (source line 25). -/
def aposEnt : List Char := ['&', 'a', 'p', 'o', 's', ';']

/-- The entity `&quot;` (source line 26). -/
def quotEnt : List Char := ['&', 'q', 'u', 'o', 't', ';']

/-- The entity `&lt;` (source line 27). -/
def ltEnt : List Char := ['&', 'l', 't', ';']

/-- The entity `&gt;` (source line 28). -/
def gtEnt : List Char := ['&', 'g', 't', ';']

/-- The entity `&amp;` (source line 29). -/
def ampEnt : List Char := ['&', 'a', 'm', 'p', ';']

/-- The five `content.replace(...)` lines of `fix_html_entities`, in source
order: `&apos;`→`'`, `&quot;`→`"`, `&lt;`→`<`, `&gt;`→`>`, `&amp;`→`&`. -/
def fixContent (content : List Char) : List Char :=
  let content := replaceAll aposEnt ['\''] content
  let content := replaceAll quotEnt ['"'] content
  let content := replaceAll ltEnt ['<'] content
  let content := replaceAll gtEnt ['>'] content
  replaceAll ampEnt ['&'] content

/-- The ordered list of the five entity strings handled by the script. -/
def theEntities : List (List Char) := [aposEnt, quotEnt, ltEnt, gtEnt, ampEnt]

/-- State of one path in the filesystem at the moment the script touches it:
missing (`os.path.exists` is false), present but reading raises, or present
with the given content, where `writeFails` records whether an attempted
write would raise. -/
inductive FileCase where
  | absent : FileCase
  | readError : FileCase
  | ok : List Char → Bool → FileCase
deriving DecidableEq

/-- Per-file console status printed by the script. -/
inductive Report where
  | fixed : Report
  | noChange : Report
  | error : Report
  | notFound : Report
deriving DecidableEq

/-- Observable outcome of one call of `fix_html_entities`: the Boolean return
value, the status line printed, whether the file was opened for writing
(which overwrites it), and the resulting content (`none` when the path was
missing or a failed write left the content unspecified). -/
structure FixOutcome where
  returned : Bool
  report : Report
  wrote : Bool
  final : Option (List Char)
deriving DecidableEq

/-- The function `fix_html_entities(file_path)` (source lines 17-42), with the
filesystem interaction abstracted into a `FileCase`: read the content, apply
the five replacements, write back only when the result differs, and catch any
exception, returning `False` for it.  Calling it on a missing path would make
`open` raise, which the `except` catches. -/
def fix_html_entities (fc : FileCase) : FixOutcome :=
  match fc with
  | .absent => ⟨false, .error, false, none⟩
  | .readError => ⟨false, .error, false, none⟩
  | .ok content writeFails =>
    if fixContent content ≠ content then
      if writeFails then ⟨false, .error, true, none⟩
      else ⟨true, .fixed, true, some (fixContent content)⟩
    else ⟨false, .noChange, false, some content⟩

/-- The hardcoded `files_to_fix` list (source lines 8-15). -/
def files_to_fix : List String :=
  [r"e:\agrinova\apps\web\lib\utils\lazy-loading.tsx",
   r"e:\agrinova\apps\web\lib\types\notifications.ts",
   r"e:\agrinova\apps\web\lib\services\performance-monitor.ts",
   r"e:\agrinova\apps\web\lib\services\language-preference-service.ts",
   r"e:\agrinova\apps\web\lib\monitoring\types.ts",
   r"e:\agrinova\apps\web\lib\debug\hooks-debugger.tsx"]

/-- Result of the driver loop (source lines 48-57): the final `fixed_count`,
the per-file status lines in order, the paths that were opened for writing,
and the paths on which `fix_html_entities` was invoked (hence opened for
reading).  Each path of `files_to_fix` occurs once in the list, so no file is
read again after being written within a run; the `FileCase` for a path is its
state when the loop reaches it. -/
structure BatchResult where
  fixedCount : Nat
  reports : List (String × Report)
  writes : List String
  reads : List String
deriving DecidableEq

/-- The driver loop (source lines 48-54): for each path, if it exists call
`fix_html_entities` and add its return value to `fixed_count`, otherwise
print "File not found" and skip the call. -/
def runBatch (w : String → FileCase) : List String → BatchResult
  | [] => ⟨0, [], [], []⟩
  | p :: ps =>
    if w p = .absent then
      ⟨(runBatch w ps).fixedCount,
       (p, .notFound) :: (runBatch w ps).reports,
       (runBatch w ps).writes,
       (runBatch w ps).reads⟩
    else
      ⟨(if (fix_html_entities (w p)).returned then 1 else 0) +
         (runBatch w ps).fixedCount,
       (p, (fix_html_entities (w p)).report) :: (runBatch w ps).reports,
       (if (fix_html_entities (w p)).wrote then [p] else []) ++
         (runBatch w ps).writes,
       p :: (runBatch w ps).reads⟩

/-- The end-to-end example content of the specification. -/
def exampleInput : List Char := "He said &quot;hi&apos; &amp; left&lt;now&gt;".data

/-- The expected decoding of `exampleInput`. -/
def exampleOutput : List Char := "He said \"hi' & left<now>".data

/-- Spec-worded comparison definition for the order-sensitivity part of the
replacement contract: the same five replacements but with `&amp;` decoded
first instead of last.  Only used to show the listed order matters. -/
def fixContentAmpFirst (content : List Char) : List Char :=
  let content := replaceAll ampEnt ['&'] content
  let content := replaceAll aposEnt ['\''] content
  let content := replaceAll quotEnt ['"'] content
  let content := replaceAll ltEnt ['<'] content
  replaceAll gtEnt ['>'] content

/-- The content used to refute idempotence of the substitution pass. -/
def cexInput : List Char := ['&', 'a', 'm', 'p', ';', 'a', 'p', 'o', 's', ';']

/-- The string `&amp;lt;`: the entity `&amp;` immediately followed by `lt;`. -/
def ampLt : List Char := ampEnt ++ ['l', 't', ';']

/-- No occurrence of `&amp;` in `s` is immediately followed by the tail of one
of the five entities, so decoding `&amp;` to `&` cannot re-introduce an entity
string.  This is the formal rendering of the specification's proviso about
"adversarial re-introduction via the replacement characters themselves". -/
def noReintroduction (s : List Char) : Prop :=
  ∀ e ∈ theEntities, ¬ (ampEnt ++ e.tail) <:+: s

instance (s : List Char) : Decidable (noReintroduction s) := by
  unfold noReintroduction; infer_instance

/-- The first path of `files_to_fix`, used to instantiate batch statements. -/
def firstPath : String := r"e:\agrinova\apps\web\lib\utils\lazy-loading.tsx"

/-- A world in which every path holds `&lt;` and reads and writes succeed. -/
def wOk : String → FileCase := fun _ => FileCase.ok ltEnt false

/-- A world in which every path is missing. -/
def wAbsent : String → FileCase := fun _ => FileCase.absent

/-- A world in which reading `firstPath` raises and every other path holds
`&lt;` with working reads and writes. -/
def wErr : String → FileCase := fun p =>
  if p = firstPath then FileCase.readError else FileCase.ok ltEnt false

theorem replaceAllGo_nil (pat rep : List Char) (f : Nat) :
    replaceAllGo pat rep f [] = [] := by
  cases f <;> rfl

theorem replaceAllGo_fuel (pat rep : List Char) :
    ∀ f f' s, s.length ≤ f → s.length ≤ f' →
      replaceAllGo pat rep f s = replaceAllGo pat rep f' s := by
  intro f
  induction f with
  | zero =>
    intro f' s hf _
    have : s = [] := List.length_eq_zero.mp (Nat.le_zero.mp hf)
    subst this
    simp [replaceAllGo_nil]
  | succ f ih =>
    intro f' s hf hf'
    match s with
    | [] => simp [replaceAllGo_nil]
    | c :: cs =>
      match f' with
      | 0 => exact absurd hf' (by simp)
      | f'' + 1 =>
        simp only [replaceAllGo]
        by_cases hcond : pat.isPrefixOf (c :: cs) ∧ pat ≠ []
        · rw [if_pos hcond, if_pos hcond]
          have hlen : (List.drop pat.length (c :: cs)).length ≤ f := by
            have hp1 : 1 ≤ pat.length := by
              cases hpat : pat with
              | nil => exact absurd hpat hcond.2
              | cons a l => simp
            simp only [List.length_drop, List.length_cons]
            simp only [List.length_cons] at hf
            omega
          have hlen' : (List.drop pat.length (c :: cs)).length ≤ f'' := by
            have hp1 : 1 ≤ pat.length := by
              cases hpat : pat with
              | nil => exact absurd hpat hcond.2
              | cons a l => simp
            simp only [List.length_drop, List.length_cons]
            simp only [List.length_cons] at hf'
            omega
          rw [ih _ _ hlen hlen']
        · rw [if_neg hcond, if_neg hcond]
          have hcs : cs.length ≤ f := by simp only [List.length_cons] at hf; omega
          have hcs' : cs.length ≤ f'' := by simp only [List.length_cons] at hf'; omega
          rw [ih _ _ hcs hcs']

theorem replaceAllGo_eq (pat rep : List Char) {f : Nat} {s : List Char}
    (h : s.length ≤ f) : replaceAllGo pat rep f s = replaceAll pat rep s :=
  replaceAllGo_fuel pat rep f s.length s h (Nat.le_refl _)

theorem strongLengthInduction {P : List Char → Prop}
    (hP : ∀ s, (∀ t, t.length < s.length → P t) → P s) : ∀ s, P s := by
  suffices h : ∀ n (s : List Char), s.length = n → P s by
    exact fun s => h s.length s rfl
  intro n
  induction n using Nat.strong_induction_on with
  | _ n ih =>
    intro s hn
    exact hP s (fun t ht => ih t.length (by omega) t rfl)

theorem infix_append_chars {q v : List Char} (hq : q ≠ []) :
    ∀ u : List Char, (∀ ch ∈ u, ch ∉ q) → q <:+: u ++ v → q <:+: v := by
  intro u
  induction u with
  | nil => intro _ h; simpa using h
  | cons c u ihu =>
    intro hd h
    rcases List.infix_cons_iff.mp h with hpre | hrest
    · match q, hq with
      | q0 :: qt, _ =>
        have hq0 : q0 = c := (List.cons_prefix_cons.mp hpre).1
        exact absurd (hq0 ▸ List.mem_cons_self q0 qt)
          (hd c (List.mem_cons_self c u))
    · exact ihu (fun ch hch => hd ch (List.mem_cons_of_mem c hch)) hrest

theorem infix_append_head {q0 : Char} {qt v : List Char} :
    ∀ u : List Char, q0 ∉ u → (q0 :: qt) <:+: u ++ v → (q0 :: qt) <:+: v := by
  intro u
  induction u with
  | nil => intro _ h; simpa using h
  | cons c u ihu =>
    intro hu h
    rcases List.infix_cons_iff.mp h with hpre | hrest
    · have : q0 = c := (List.cons_prefix_cons.mp hpre).1
      exact absurd (this ▸ List.mem_cons_self c u) hu
    · exact ihu (fun hm => hu (List.mem_cons_of_mem c hm)) hrest

theorem replaceAll_nil (pat rep : List Char) : replaceAll pat rep [] = [] := rfl

theorem replaceAll_cons_pos {pat : List Char} (rep : List Char) {c : Char}
    {cs : List Char} (h : pat <+: c :: cs) (hne : pat ≠ []) :
    replaceAll pat rep (c :: cs) =
      rep ++ replaceAll pat rep (List.drop pat.length (c :: cs)) := by
  have hb : pat.isPrefixOf (c :: cs) ∧ pat ≠ [] :=
    ⟨List.isPrefixOf_iff_prefix.mpr h, hne⟩
  show replaceAllGo pat rep (cs.length + 1) (c :: cs) = _
  simp only [replaceAllGo, if_pos hb]
  congr 1
  exact replaceAllGo_eq pat rep (by
    have hp1 : 1 ≤ pat.length := by
      cases hpat : pat with
      | nil => exact absurd hpat hne
      | cons a l => simp
    simp only [List.length_drop, List.length_cons]
    omega)

theorem replaceAll_cons_neg {pat : List Char} (rep : List Char) {c : Char}
    {cs : List Char} (h : ¬ pat <+: c :: cs) :
    replaceAll pat rep (c :: cs) = c :: replaceAll pat rep cs := by
  have hb : ¬ (pat.isPrefixOf (c :: cs) ∧ pat ≠ []) := by
    intro hc
    exact h (List.isPrefixOf_iff_prefix.mp hc.1)
  show replaceAllGo pat rep (cs.length + 1) (c :: cs) = _
  simp only [replaceAllGo, if_neg hb]
  rfl

theorem replaceAll_skip {p0 : Char} {pt rep : List Char} {v : List Char} :
    ∀ u : List Char, p0 ∉ u →
      replaceAll (p0 :: pt) rep (u ++ v) = u ++ replaceAll (p0 :: pt) rep v := by
  intro u
  induction u with
  | nil => simp
  | cons c u ihu =>
    intro hu
    have hnp : ¬ (p0 :: pt) <+: c :: (u ++ v) := by
      intro hpre
      have : p0 = c := (List.cons_prefix_cons.mp hpre).1
      exact hu (this ▸ List.mem_cons_self c u)
    rw [List.cons_append, replaceAll_cons_neg rep hnp,
      ihu (fun hm => hu (List.mem_cons_of_mem c hm)), List.cons_append]


theorem replaceAll_length_le {pat rep : List Char} (hpat : pat ≠ [])
    (hrep : rep.length ≤ pat.length) :
    ∀ s, (replaceAll pat rep s).length ≤ s.length := by
  intro s
  induction s using strongLengthInduction with
  | hP s ih =>
    cases s with
    | nil => simp [replaceAll_nil]
    | cons c cs =>
      by_cases hpre : pat <+: c :: cs
      · rw [replaceAll_cons_pos rep hpre hpat]
        have hplen : 1 ≤ pat.length := List.length_pos.mpr hpat
        have hple : pat.length ≤ (c :: cs).length := hpre.length_le
        have hdl : (List.drop pat.length (c :: cs)).length < (c :: cs).length := by
          simp only [List.length_drop, List.length_cons]
          simp only [List.length_cons] at hple
          omega
        have h1 := ih _ hdl
        simp only [List.length_append, List.length_drop, List.length_cons]
        simp only [List.length_drop, List.length_cons] at h1
        simp only [List.length_cons] at hple
        omega
      · rw [replaceAll_cons_neg rep hpre]
        have h1 := ih cs (by simp)
        simp only [List.length_cons]
        omega

theorem replaceAll_length_lt {pat rep : List Char} (hpat : pat ≠ [])
    (hrep : rep.length < pat.length) :
    ∀ s, pat <:+: s → (replaceAll pat rep s).length < s.length := by
  intro s
  induction s using strongLengthInduction with
  | hP s ih =>
    cases s with
    | nil =>
      intro hin
      exact absurd (List.infix_nil.mp hin) hpat
    | cons c cs =>
      intro hin
      by_cases hpre : pat <+: c :: cs
      · rw [replaceAll_cons_pos rep hpre hpat]
        have h1 := replaceAll_length_le hpat (Nat.le_of_lt hrep)
          (List.drop pat.length (c :: cs))
        have hple : pat.length ≤ (c :: cs).length := hpre.length_le
        simp only [List.length_append, List.length_drop, List.length_cons]
        simp only [List.length_drop, List.length_cons] at h1
        simp only [List.length_cons] at hple
        omega
      · rcases List.infix_cons_iff.mp hin with h | h
        · exact absurd h hpre
        · rw [replaceAll_cons_neg rep hpre]
          have h1 := ih cs (by simp) h
          simp only [List.length_cons]
          omega

theorem replaceAll_id {pat rep : List Char} (hpat : pat ≠ []) :
    ∀ s, ¬ pat <:+: s → replaceAll pat rep s = s := by
  intro s
  induction s using strongLengthInduction with
  | hP s ih =>
    cases s with
    | nil => intro _; exact replaceAll_nil pat rep
    | cons c cs =>
      intro hin
      have hpre : ¬ pat <+: c :: cs := fun h => hin h.isInfix
      rw [replaceAll_cons_neg rep hpre,
        ih cs (by simp) (fun h => hin (List.infix_cons_iff.mpr (Or.inr h)))]

theorem replaceAll_prefix_inv {pat rep : List Char} (hpat : pat ≠ [])
    (hrep : rep ≠ []) :
    ∀ s q, (∀ ch ∈ q, ch ∉ rep) → q <+: replaceAll pat rep s → q <+: s := by
  intro s
  induction s using strongLengthInduction with
  | hP s ih =>
    cases s with
    | nil =>
      intro q _ h
      rw [replaceAll_nil] at h
      exact (List.prefix_nil.mp h) ▸ List.nil_prefix
    | cons c cs =>
      intro q hd h
      by_cases hpre : pat <+: c :: cs
      · rw [replaceAll_cons_pos rep hpre hpat] at h
        cases q with
        | nil => exact List.nil_prefix
        | cons q0 qt =>
          cases rep with
          | nil => exact absurd rfl hrep
          | cons r0 rt =>
            simp only [List.cons_append] at h
            have hq0 : q0 = r0 := (List.cons_prefix_cons.mp h).1
            have hnm : q0 ∉ r0 :: rt := hd q0 (List.mem_cons_self q0 qt)
            rw [hq0] at hnm
            exact absurd (List.mem_cons_self r0 rt) hnm
      · rw [replaceAll_cons_neg rep hpre] at h
        cases q with
        | nil => exact List.nil_prefix
        | cons q0 qt =>
          obtain ⟨hq0, hqt⟩ := List.cons_prefix_cons.mp h
          have h1 := ih cs (by simp) qt
            (fun ch hch => hd ch (List.mem_cons_of_mem q0 hch)) hqt
          exact List.cons_prefix_cons.mpr ⟨hq0, h1⟩

theorem replaceAll_not_infix {pat rep q : List Char} (hpat : pat ≠ [])
    (hrep : rep ≠ []) (hq : q ≠ []) (hd : ∀ ch ∈ rep, ch ∉ q) :
    ∀ s, ¬ q <:+: s → ¬ q <:+: replaceAll pat rep s := by
  intro s
  induction s using strongLengthInduction with
  | hP s ih =>
    cases s with
    | nil =>
      intro _ h
      rw [replaceAll_nil] at h
      exact hq (List.infix_nil.mp h)
    | cons c cs =>
      intro hin h
      by_cases hpre : pat <+: c :: cs
      · rw [replaceAll_cons_pos rep hpre hpat] at h
        have h2 := infix_append_chars hq rep hd h
        have hplen : 1 ≤ pat.length := List.length_pos.mpr hpat
        have hdl : (List.drop pat.length (c :: cs)).length < (c :: cs).length := by
          simp only [List.length_drop, List.length_cons]
          omega
        have hnin : ¬ q <:+: List.drop pat.length (c :: cs) := fun hx =>
          hin (hx.trans (List.drop_suffix _ _).isInfix)
        exact ih _ hdl hnin h2
      · rw [replaceAll_cons_neg rep hpre] at h
        rcases List.infix_cons_iff.mp h with h1 | h1
        · cases q with
          | nil => exact hq rfl
          | cons q0 qt =>
            obtain ⟨hq0, hqt⟩ := List.cons_prefix_cons.mp h1
            have hqtd : ∀ ch ∈ qt, ch ∉ rep := fun ch hch hcr =>
              hd ch hcr (List.mem_cons_of_mem q0 hch)
            have h2 : qt <+: cs := replaceAll_prefix_inv hpat hrep cs qt hqtd hqt
            exact hin (List.IsPrefix.isInfix (List.cons_prefix_cons.mpr ⟨hq0, h2⟩))
        · exact ih cs (by simp) (fun hx => hin (List.infix_cons_iff.mpr (Or.inr hx))) h1

theorem replaceAll_removes {pat rep : List Char} (hpat : pat ≠ [])
    (hrep : rep ≠ []) (hd : ∀ ch ∈ rep, ch ∉ pat) :
    ∀ s, ¬ pat <:+: replaceAll pat rep s := by
  intro s
  induction s using strongLengthInduction with
  | hP s ih =>
    cases s with
    | nil =>
      intro h
      rw [replaceAll_nil] at h
      exact hpat (List.infix_nil.mp h)
    | cons c cs =>
      intro h
      by_cases hpre : pat <+: c :: cs
      · rw [replaceAll_cons_pos rep hpre hpat] at h
        have h2 := infix_append_chars hpat rep hd h
        have hplen : 1 ≤ pat.length := List.length_pos.mpr hpat
        have hdl : (List.drop pat.length (c :: cs)).length < (c :: cs).length := by
          simp only [List.length_drop, List.length_cons]
          omega
        exact ih _ hdl h2
      · rw [replaceAll_cons_neg rep hpre] at h
        rcases List.infix_cons_iff.mp h with h1 | h1
        · cases pat with
          | nil => exact hpat rfl
          | cons p0 pt =>
            obtain ⟨hp0, hpt⟩ := List.cons_prefix_cons.mp h1
            have hptd : ∀ ch ∈ pt, ch ∉ rep := fun ch hch hcr =>
              hd ch hcr (List.mem_cons_of_mem p0 hch)
            have h2 : pt <+: cs :=
              replaceAll_prefix_inv hpat hrep cs pt hptd hpt
            exact hpre (List.cons_prefix_cons.mpr ⟨hp0, h2⟩)
        · exact ih cs (by simp) h1

theorem replaceAll_amp_noNew {q qt : List Char} (hq : q = '&' :: qt)
    (hqt : qt ≠ []) (hamp : '&' ∉ qt) :
    ∀ s, ¬ (ampEnt ++ qt) <:+: s → (¬ q <:+: s ∨ q = ampEnt) →
      ¬ q <:+: replaceAll ampEnt ['&'] s := by
  have hdq : ∀ ch ∈ qt, ch ∉ (['&'] : List Char) := fun ch hch h1 =>
    hamp (List.mem_singleton.mp h1 ▸ hch)
  intro s
  induction s using strongLengthInduction with
  | hP s ih =>
    cases s with
    | nil =>
      intro _ _ h
      rw [replaceAll_nil, hq] at h
      exact absurd (List.infix_nil.mp h) (by simp)
    | cons c cs =>
      intro hcomp hside h
      by_cases hpre : ampEnt <+: c :: cs
      · obtain ⟨t, ht⟩ := hpre
        rw [replaceAll_cons_pos _ ⟨t, ht⟩ (by simp [ampEnt])] at h
        have hdrop : List.drop ampEnt.length (c :: cs) = t := by
          rw [← ht, List.drop_left]
        rw [hdrop, List.singleton_append] at h
        rcases List.infix_cons_iff.mp h with h1 | h1
        · rw [hq] at h1
          have hqt2 : qt <+: replaceAll ampEnt ['&'] t :=
            (List.cons_prefix_cons.mp h1).2
          have hqtt : qt <+: t :=
            replaceAll_prefix_inv (by simp [ampEnt]) (by simp) t qt hdq hqt2
          obtain ⟨rest, hrest⟩ := hqtt
          apply hcomp
          have hx : (ampEnt ++ qt) <+: ampEnt ++ t := by
            rw [← hrest, ← List.append_assoc]
            exact List.prefix_append _ _
          rw [ht] at hx
          exact hx.isInfix
        · have hlt : t.length < (c :: cs).length := by
            have hlen := congrArg List.length ht
            simp only [List.length_append, List.length_cons] at hlen
            have h5 : ampEnt.length = 5 := rfl
            rw [h5] at hlen
            simp only [List.length_cons]
            omega
          have hsuf : t <:+: c :: cs := by
            rw [← ht]; exact (List.suffix_append ampEnt t).isInfix
          have hcomp2 : ¬ (ampEnt ++ qt) <:+: t := fun hx =>
            hcomp (hx.trans hsuf)
          have hside2 : ¬ q <:+: t ∨ q = ampEnt := by
            rcases hside with hs | hs
            · exact Or.inl (fun hx => hs (hx.trans hsuf))
            · exact Or.inr hs
          exact ih t hlt hcomp2 hside2 h1
      · rw [replaceAll_cons_neg _ hpre] at h
        rcases List.infix_cons_iff.mp h with h1 | h1
        · rw [hq] at h1
          obtain ⟨hc, hqt2⟩ := List.cons_prefix_cons.mp h1
          have hqtcs : qt <+: cs :=
            replaceAll_prefix_inv (by simp [ampEnt]) (by simp) cs qt hdq hqt2
          have hqpre : q <+: c :: cs := by
            rw [hq, ← hc]
            exact List.cons_prefix_cons.mpr ⟨rfl, hqtcs⟩
          rcases hside with hs | hs
          · exact hs hqpre.isInfix
          · rw [hs] at hqpre
            exact hpre hqpre
        · refine ih cs (by simp) (fun hx => hcomp (List.infix_cons_iff.mpr (Or.inr hx))) ?_ h1
          rcases hside with hs | hs
          · exact Or.inl (fun hx => hs (List.infix_cons_iff.mpr (Or.inr hx)))
          · exact Or.inr hs

theorem replaceAll_amp_ampLt :
    ∀ s, ampLt <:+: s → ltEnt <:+: replaceAll ampEnt ['&'] s := by
  intro s
  induction s using strongLengthInduction with
  | hP s ih =>
    cases s with
    | nil =>
      intro h
      exact absurd (List.infix_nil.mp h) (by simp [ampLt, ampEnt])
    | cons c cs =>
      intro hin
      by_cases hpre : ampEnt <+: c :: cs
      · obtain ⟨t, ht⟩ := hpre
        rw [replaceAll_cons_pos _ ⟨t, ht⟩ (by simp [ampEnt])]
        have hdrop : List.drop ampEnt.length (c :: cs) = t := by
          rw [← ht, List.drop_left]
        rw [hdrop]
        by_cases hq : ampLt <+: c :: cs
        · obtain ⟨t2, ht2⟩ := hq
          have htt : t = ['l', 't', ';'] ++ t2 := by
            have hx : ampEnt ++ t = ampEnt ++ (['l', 't', ';'] ++ t2) := by
              rw [ht, ← ht2]
              show ampLt ++ t2 = ampEnt ++ ['l', 't', ';'] ++ t2
              rw [ampLt]
            exact List.append_cancel_left hx
          rw [htt,
            show replaceAll ampEnt ['&'] (['l', 't', ';'] ++ t2) =
              ['l', 't', ';'] ++ replaceAll ampEnt ['&'] t2 from
              replaceAll_skip ['l', 't', ';'] (by decide)]
          apply List.IsPrefix.isInfix
          rw [List.singleton_append]
          show ('&' :: ['l', 't', ';']) <+:
            '&' :: (['l', 't', ';'] ++ replaceAll ampEnt ['&'] t2)
          exact List.cons_prefix_cons.mpr ⟨rfl, List.prefix_append _ _⟩
        · have hcons : c :: cs = '&' :: (['a', 'm', 'p', ';'] ++ t) := by
            rw [← ht]; rfl
          rw [hcons] at hin
          rcases List.infix_cons_iff.mp hin with h1 | h1
          · rw [← hcons] at h1
            exact absurd h1 hq
          · have h2 : ampLt <:+: t := by
              have h3 : ('&' :: ['a', 'm', 'p', ';', 'l', 't', ';']) <:+: t :=
                infix_append_head ['a', 'm', 'p', ';'] (by decide) h1
              exact h3
            have hlt : t.length < (c :: cs).length := by
              have hlen := congrArg List.length ht
              simp only [List.length_append, List.length_cons] at hlen
              have h5 : ampEnt.length = 5 := rfl
              rw [h5] at hlen
              simp only [List.length_cons]
              omega
            have h4 := ih t hlt h2
            exact h4.trans (List.suffix_append ['&'] _).isInfix
      · rw [replaceAll_cons_neg _ hpre]
        rcases List.infix_cons_iff.mp hin with h1 | h1
        · exact absurd ((show ampEnt <+: ampLt by decide).trans h1) hpre
        · exact List.infix_cons_iff.mpr (Or.inr (ih cs (by simp) h1))

theorem fixContent_eq (s : List Char) :
    fixContent s =
      replaceAll ampEnt ['&'] (replaceAll gtEnt ['>'] (replaceAll ltEnt ['<']
        (replaceAll quotEnt ['"'] (replaceAll aposEnt ['\''] s)))) := rfl

theorem fixContent_of_noEntity {s : List Char}
    (h : ∀ e ∈ theEntities, ¬ e <:+: s) : fixContent s = s := by
  have ha := h aposEnt (by simp [theEntities])
  have hb := h quotEnt (by simp [theEntities])
  have hc := h ltEnt (by simp [theEntities])
  have hd := h gtEnt (by simp [theEntities])
  have he := h ampEnt (by simp [theEntities])
  rw [fixContent_eq, replaceAll_id (by decide) s ha, replaceAll_id (by decide) s hb,
    replaceAll_id (by decide) s hc, replaceAll_id (by decide) s hd,
    replaceAll_id (by decide) s he]

theorem fourPasses_not_infix {q : List Char} (hq : q ≠ [])
    (h1 : '\'' ∉ q) (h2 : '"' ∉ q) (h3 : '<' ∉ q) (h4 : '>' ∉ q)
    (s : List Char) (h : ¬ q <:+: s) :
    ¬ q <:+: replaceAll gtEnt ['>'] (replaceAll ltEnt ['<']
      (replaceAll quotEnt ['"'] (replaceAll aposEnt ['\''] s))) := by
  have k1 : ¬ q <:+: replaceAll aposEnt ['\''] s :=
    replaceAll_not_infix (by decide) (by decide) hq
      (fun ch hch => List.mem_singleton.mp hch ▸ h1) s h
  have k2 : ¬ q <:+: replaceAll quotEnt ['"'] (replaceAll aposEnt ['\''] s) :=
    replaceAll_not_infix (by decide) (by decide) hq
      (fun ch hch => List.mem_singleton.mp hch ▸ h2) _ k1
  have k3 : ¬ q <:+: replaceAll ltEnt ['<']
      (replaceAll quotEnt ['"'] (replaceAll aposEnt ['\''] s)) :=
    replaceAll_not_infix (by decide) (by decide) hq
      (fun ch hch => List.mem_singleton.mp hch ▸ h3) _ k2
  exact replaceAll_not_infix (by decide) (by decide) hq
    (fun ch hch => List.mem_singleton.mp hch ▸ h4) _ k3

theorem fixContent_no_apos {s : List Char}
    (hcomp : ¬ (ampEnt ++ ['a', 'p', 'o', 's', ';']) <:+: s) :
    ¬ aposEnt <:+: fixContent s := by
  rw [fixContent_eq]
  have a1 : ¬ aposEnt <:+: replaceAll aposEnt ['\''] s :=
    replaceAll_removes (by decide) (by decide) (by decide) s
  have a2 : ¬ aposEnt <:+:
      replaceAll quotEnt ['"'] (replaceAll aposEnt ['\''] s) :=
    replaceAll_not_infix (by decide) (by decide) (by decide) (by decide) _ a1
  have a3 : ¬ aposEnt <:+: replaceAll ltEnt ['<']
      (replaceAll quotEnt ['"'] (replaceAll aposEnt ['\''] s)) :=
    replaceAll_not_infix (by decide) (by decide) (by decide) (by decide) _ a2
  have a4 : ¬ aposEnt <:+: replaceAll gtEnt ['>'] (replaceAll ltEnt ['<']
      (replaceAll quotEnt ['"'] (replaceAll aposEnt ['\''] s))) :=
    replaceAll_not_infix (by decide) (by decide) (by decide) (by decide) _ a3
  have hc4 := fourPasses_not_infix (by decide) (by decide) (by decide)
    (by decide) (by decide) s hcomp
  exact replaceAll_amp_noNew rfl (by decide) (by decide) _ hc4 (Or.inl a4)

theorem fixContent_no_quot {s : List Char}
    (hcomp : ¬ (ampEnt ++ ['q', 'u', 'o', 't', ';']) <:+: s) :
    ¬ quotEnt <:+: fixContent s := by
  rw [fixContent_eq]
  have b1 : ¬ quotEnt <:+:
      replaceAll quotEnt ['"'] (replaceAll aposEnt ['\''] s) :=
    replaceAll_removes (by decide) (by decide) (by decide) _
  have b2 : ¬ quotEnt <:+: replaceAll ltEnt ['<']
      (replaceAll quotEnt ['"'] (replaceAll aposEnt ['\''] s)) :=
    replaceAll_not_infix (by decide) (by decide) (by decide) (by decide) _ b1
  have b3 : ¬ quotEnt <:+: replaceAll gtEnt ['>'] (replaceAll ltEnt ['<']
      (replaceAll quotEnt ['"'] (replaceAll aposEnt ['\''] s))) :=
    replaceAll_not_infix (by decide) (by decide) (by decide) (by decide) _ b2
  have hc4 := fourPasses_not_infix (by decide) (by decide) (by decide)
    (by decide) (by decide) s hcomp
  exact replaceAll_amp_noNew rfl (by decide) (by decide) _ hc4 (Or.inl b3)

theorem fixContent_no_lt {s : List Char}
    (hcomp : ¬ (ampEnt ++ ['l', 't', ';']) <:+: s) :
    ¬ ltEnt <:+: fixContent s := by
  rw [fixContent_eq]
  have c1 : ¬ ltEnt <:+: replaceAll ltEnt ['<']
      (replaceAll quotEnt ['"'] (replaceAll aposEnt ['\''] s)) :=
    replaceAll_removes (by decide) (by decide) (by decide) _
  have c2 : ¬ ltEnt <:+: replaceAll gtEnt ['>'] (replaceAll ltEnt ['<']
      (replaceAll quotEnt ['"'] (replaceAll aposEnt ['\''] s))) :=
    replaceAll_not_infix (by decide) (by decide) (by decide) (by decide) _ c1
  have hc4 := fourPasses_not_infix (by decide) (by decide) (by decide)
    (by decide) (by decide) s hcomp
  exact replaceAll_amp_noNew rfl (by decide) (by decide) _ hc4 (Or.inl c2)

theorem fixContent_no_gt {s : List Char}
    (hcomp : ¬ (ampEnt ++ ['g', 't', ';']) <:+: s) :
    ¬ gtEnt <:+: fixContent s := by
  rw [fixContent_eq]
  have d1 : ¬ gtEnt <:+: replaceAll gtEnt ['>'] (replaceAll ltEnt ['<']
      (replaceAll quotEnt ['"'] (replaceAll aposEnt ['\''] s))) :=
    replaceAll_removes (by decide) (by decide) (by decide) _
  have hc4 := fourPasses_not_infix (by decide) (by decide) (by decide)
    (by decide) (by decide) s hcomp
  exact replaceAll_amp_noNew rfl (by decide) (by decide) _ hc4 (Or.inl d1)

theorem fixContent_no_amp {s : List Char}
    (hcomp : ¬ (ampEnt ++ ['a', 'm', 'p', ';']) <:+: s) :
    ¬ ampEnt <:+: fixContent s := by
  rw [fixContent_eq]
  have hc4 := fourPasses_not_infix (by decide) (by decide) (by decide)
    (by decide) (by decide) s hcomp
  exact replaceAll_amp_noNew rfl (by decide) (by decide) _ hc4 (Or.inr rfl)

theorem fixContent_noEntities {s : List Char} (h : noReintroduction s) :
    ∀ e ∈ theEntities, ¬ e <:+: fixContent s := by
  intro e he
  simp only [theEntities, List.mem_cons, List.not_mem_nil, or_false] at he
  rcases he with rfl | rfl | rfl | rfl | rfl
  · exact fixContent_no_apos (h aposEnt (by simp [theEntities]))
  · exact fixContent_no_quot (h quotEnt (by simp [theEntities]))
  · exact fixContent_no_lt (h ltEnt (by simp [theEntities]))
  · exact fixContent_no_gt (h gtEnt (by simp [theEntities]))
  · exact fixContent_no_amp (h ampEnt (by simp [theEntities]))

theorem fixContent_idem {s : List Char} (h : noReintroduction s) :
    fixContent (fixContent s) = fixContent s :=
  fixContent_of_noEntity (fixContent_noEntities h)

theorem runBatch_cons_absent {w : String → FileCase} {p : String}
    (ps : List String) (h : w p = .absent) :
    runBatch w (p :: ps) =
      ⟨(runBatch w ps).fixedCount,
       (p, .notFound) :: (runBatch w ps).reports,
       (runBatch w ps).writes,
       (runBatch w ps).reads⟩ := by
  simp [runBatch, h]

theorem runBatch_cons_present {w : String → FileCase} {p : String}
    (ps : List String) (h : w p ≠ .absent) :
    runBatch w (p :: ps) =
      ⟨(if (fix_html_entities (w p)).returned then 1 else 0) +
         (runBatch w ps).fixedCount,
       (p, (fix_html_entities (w p)).report) :: (runBatch w ps).reports,
       (if (fix_html_entities (w p)).wrote then [p] else []) ++
         (runBatch w ps).writes,
       p :: (runBatch w ps).reads⟩ := by
  simp [runBatch, h]

theorem runBatch_reports_paths (w : String → FileCase) :
    ∀ ps, (runBatch w ps).reports.map Prod.fst = ps := by
  intro ps
  induction ps with
  | nil => rfl
  | cons p ps ih =>
    by_cases h : w p = .absent
    · rw [runBatch_cons_absent ps h]
      simp [ih]
    · rw [runBatch_cons_present ps h]
      simp [ih]

theorem runBatch_report_mem (w : String → FileCase) :
    ∀ ps p, p ∈ ps → w p ≠ .absent →
      (p, (fix_html_entities (w p)).report) ∈ (runBatch w ps).reports := by
  intro ps
  induction ps with
  | nil => intro p hp _; exact absurd hp (List.not_mem_nil p)
  | cons p0 ps ih =>
    intro p hp hw
    rcases List.mem_cons.mp hp with rfl | hp2
    · rw [runBatch_cons_present ps hw]
      exact List.mem_cons_self _ _
    · by_cases h0 : w p0 = .absent
      · rw [runBatch_cons_absent ps h0]
        exact List.mem_cons_of_mem _ (ih p hp2 hw)
      · rw [runBatch_cons_present ps h0]
        exact List.mem_cons_of_mem _ (ih p hp2 hw)

theorem runBatch_absent_no_touch {w : String → FileCase} {p : String}
    (h : w p = .absent) :
    ∀ ps, p ∉ (runBatch w ps).reads ∧ p ∉ (runBatch w ps).writes := by
  intro ps
  induction ps with
  | nil => exact ⟨List.not_mem_nil p, List.not_mem_nil p⟩
  | cons p0 ps ih =>
    by_cases h0 : w p0 = .absent
    · rw [runBatch_cons_absent ps h0]
      exact ih
    · rw [runBatch_cons_present ps h0]
      constructor
      · intro hm
        rcases List.mem_cons.mp hm with rfl | hm2
        · exact h0 h
        · exact ih.1 hm2
      · intro hm
        rcases List.mem_append.mp hm with hm1 | hm2
        · by_cases hwr : (fix_html_entities (w p0)).wrote
          · rw [if_pos hwr] at hm1
            rcases List.mem_singleton.mp hm1 with rfl
            exact h0 h
          · rw [if_neg hwr] at hm1
            exact absurd hm1 (List.not_mem_nil p)
        · exact ih.2 hm2

theorem runBatch_absent_count {w : String → FileCase} {p : String}
    (h : w p = .absent) :
    ∀ l1 l2, (runBatch w (l1 ++ p :: l2)).fixedCount =
      (runBatch w (l1 ++ l2)).fixedCount := by
  intro l1
  induction l1 with
  | nil =>
    intro l2
    rw [List.nil_append, List.nil_append, runBatch_cons_absent l2 h]
  | cons q l1 ih =>
    intro l2
    rw [List.cons_append, List.cons_append]
    by_cases hq : w q = .absent
    · rw [runBatch_cons_absent _ hq, runBatch_cons_absent _ hq]
      exact ih l2
    · rw [runBatch_cons_present _ hq, runBatch_cons_present _ hq]
      simp [ih l2]

theorem runBatch_count_filter (w : String → FileCase) :
    ∀ ps, (runBatch w ps).fixedCount =
      (ps.filter (fun p => (fix_html_entities (w p)).returned)).length := by
  intro ps
  induction ps with
  | nil => rfl
  | cons p ps ih =>
    by_cases h : w p = .absent
    · rw [runBatch_cons_absent ps h]
      have hret : (fix_html_entities (w p)).returned = false := by
        rw [h]; rfl
      simp [List.filter_cons, hret, ih]
    · rw [runBatch_cons_present ps h]
      by_cases hret : (fix_html_entities (w p)).returned
      · simp [List.filter_cons, hret, ih]
        omega
      · simp only [Bool.not_eq_true] at hret
        simp [List.filter_cons, hret, ih]

theorem runBatch_writes_count (w : String → FileCase) (p : String) :
    ∀ ps, ((runBatch w ps).writes.count p) ≤ ps.count p := by
  intro ps
  induction ps with
  | nil => simp [runBatch]
  | cons p0 ps ih =>
    rw [List.count_cons]
    by_cases h0 : w p0 = .absent
    · rw [runBatch_cons_absent ps h0]
      show ((runBatch w ps).writes.count p) ≤ _
      omega
    · rw [runBatch_cons_present ps h0]
      show (((if (fix_html_entities (w p0)).wrote then [p0] else []) ++
        (runBatch w ps).writes).count p) ≤ _
      rw [List.count_append]
      have h1 : ((if (fix_html_entities (w p0)).wrote then [p0] else []).count p) ≤
          (if (p0 == p) = true then (1 : Nat) else 0) := by
        by_cases hwr : (fix_html_entities (w p0)).wrote
        · rw [if_pos hwr]
          by_cases hpp : p0 = p
          · subst hpp
            simp
          · simp [List.count_cons, hpp]
        · rw [if_neg hwr]
          simp
      omega

theorem fixContent_length_le (s : List Char) :
    (fixContent s).length ≤ s.length := by
  rw [fixContent_eq]
  have l1 : (replaceAll aposEnt ['\''] s).length ≤ s.length :=
    replaceAll_length_le (by decide) (by decide) s
  have l2 : (replaceAll quotEnt ['"'] (replaceAll aposEnt ['\''] s)).length ≤
      (replaceAll aposEnt ['\''] s).length :=
    replaceAll_length_le (by decide) (by decide) _
  have l3 : (replaceAll ltEnt ['<'] (replaceAll quotEnt ['"']
      (replaceAll aposEnt ['\''] s))).length ≤
      (replaceAll quotEnt ['"'] (replaceAll aposEnt ['\''] s)).length :=
    replaceAll_length_le (by decide) (by decide) _
  have l4 : (replaceAll gtEnt ['>'] (replaceAll ltEnt ['<'] (replaceAll quotEnt ['"']
      (replaceAll aposEnt ['\''] s)))).length ≤
      (replaceAll ltEnt ['<'] (replaceAll quotEnt ['"']
        (replaceAll aposEnt ['\''] s))).length :=
    replaceAll_length_le (by decide) (by decide) _
  have l5 : (replaceAll ampEnt ['&'] (replaceAll gtEnt ['>'] (replaceAll ltEnt ['<']
      (replaceAll quotEnt ['"'] (replaceAll aposEnt ['\''] s))))).length ≤
      (replaceAll gtEnt ['>'] (replaceAll ltEnt ['<'] (replaceAll quotEnt ['"']
        (replaceAll aposEnt ['\''] s)))).length :=
    replaceAll_length_le (by decide) (by decide) _
  omega

theorem fixContent_changed {s : List Char}
    (h : ∃ e ∈ theEntities, e <:+: s) : fixContent s ≠ s := by
  obtain ⟨e, he, hin⟩ := h
  intro heq
  have l1 : (replaceAll aposEnt ['\''] s).length ≤ s.length :=
    replaceAll_length_le (by decide) (by decide) s
  have l2 : (replaceAll quotEnt ['"'] (replaceAll aposEnt ['\''] s)).length ≤
      (replaceAll aposEnt ['\''] s).length :=
    replaceAll_length_le (by decide) (by decide) _
  have l3 : (replaceAll ltEnt ['<'] (replaceAll quotEnt ['"']
      (replaceAll aposEnt ['\''] s))).length ≤
      (replaceAll quotEnt ['"'] (replaceAll aposEnt ['\''] s)).length :=
    replaceAll_length_le (by decide) (by decide) _
  have l4 : (replaceAll gtEnt ['>'] (replaceAll ltEnt ['<'] (replaceAll quotEnt ['"']
      (replaceAll aposEnt ['\''] s)))).length ≤
      (replaceAll ltEnt ['<'] (replaceAll quotEnt ['"']
        (replaceAll aposEnt ['\''] s))).length :=
    replaceAll_length_le (by decide) (by decide) _
  have l5 : (replaceAll ampEnt ['&'] (replaceAll gtEnt ['>'] (replaceAll ltEnt ['<']
      (replaceAll quotEnt ['"'] (replaceAll aposEnt ['\''] s))))).length ≤
      (replaceAll gtEnt ['>'] (replaceAll ltEnt ['<'] (replaceAll quotEnt ['"']
        (replaceAll aposEnt ['\''] s)))).length :=
    replaceAll_length_le (by decide) (by decide) _
  have hlen : (fixContent s).length = s.length := by rw [heq]
  rw [fixContent_eq] at hlen
  have hnApos : ¬ aposEnt <:+: s := by
    intro hx
    have hlt1 : (replaceAll aposEnt ['\''] s).length < s.length :=
      replaceAll_length_lt (by decide) (by decide) s hx
    omega
  have hE1 : replaceAll aposEnt ['\''] s = s :=
    replaceAll_id (by decide) s hnApos
  have hnQuot : ¬ quotEnt <:+: replaceAll aposEnt ['\''] s := by
    intro hx
    have hlt2 : (replaceAll quotEnt ['"'] (replaceAll aposEnt ['\''] s)).length <
        (replaceAll aposEnt ['\''] s).length :=
      replaceAll_length_lt (by decide) (by decide) _ hx
    omega
  have hE2 : replaceAll quotEnt ['"'] (replaceAll aposEnt ['\''] s) =
      replaceAll aposEnt ['\''] s :=
    replaceAll_id (by decide) _ hnQuot
  have hnLt : ¬ ltEnt <:+:
      replaceAll quotEnt ['"'] (replaceAll aposEnt ['\''] s) := by
    intro hx
    have hlt3 : (replaceAll ltEnt ['<'] (replaceAll quotEnt ['"']
        (replaceAll aposEnt ['\''] s))).length <
        (replaceAll quotEnt ['"'] (replaceAll aposEnt ['\''] s)).length :=
      replaceAll_length_lt (by decide) (by decide) _ hx
    omega
  have hE3 : replaceAll ltEnt ['<'] (replaceAll quotEnt ['"']
      (replaceAll aposEnt ['\''] s)) =
      replaceAll quotEnt ['"'] (replaceAll aposEnt ['\''] s) :=
    replaceAll_id (by decide) _ hnLt
  have hnGt : ¬ gtEnt <:+: replaceAll ltEnt ['<'] (replaceAll quotEnt ['"']
      (replaceAll aposEnt ['\''] s)) := by
    intro hx
    have hlt4 : (replaceAll gtEnt ['>'] (replaceAll ltEnt ['<'] (replaceAll quotEnt ['"']
        (replaceAll aposEnt ['\''] s)))).length <
        (replaceAll ltEnt ['<'] (replaceAll quotEnt ['"']
          (replaceAll aposEnt ['\''] s))).length :=
      replaceAll_length_lt (by decide) (by decide) _ hx
    omega
  have hE4 : replaceAll gtEnt ['>'] (replaceAll ltEnt ['<'] (replaceAll quotEnt ['"']
      (replaceAll aposEnt ['\''] s))) =
      replaceAll ltEnt ['<'] (replaceAll quotEnt ['"']
        (replaceAll aposEnt ['\''] s)) :=
    replaceAll_id (by decide) _ hnGt
  have hnAmp : ¬ ampEnt <:+: replaceAll gtEnt ['>'] (replaceAll ltEnt ['<']
      (replaceAll quotEnt ['"'] (replaceAll aposEnt ['\''] s))) := by
    intro hx
    have hlt5 : (replaceAll ampEnt ['&'] (replaceAll gtEnt ['>'] (replaceAll ltEnt ['<']
        (replaceAll quotEnt ['"'] (replaceAll aposEnt ['\''] s))))).length <
        (replaceAll gtEnt ['>'] (replaceAll ltEnt ['<'] (replaceAll quotEnt ['"']
          (replaceAll aposEnt ['\''] s)))).length :=
      replaceAll_length_lt (by decide) (by decide) _ hx
    omega
  simp only [theEntities, List.mem_cons, List.not_mem_nil, or_false] at he
  rcases he with rfl | rfl | rfl | rfl | rfl
  · exact hnApos hin
  · rw [← hE1] at hin
    exact hnQuot hin
  · rw [← hE1, ← hE2] at hin
    exact hnLt hin
  · rw [← hE1, ← hE2, ← hE3] at hin
    exact hnGt hin
  · rw [← hE1, ← hE2, ← hE3, ← hE4] at hin
    exact hnAmp hin

theorem replaceAll_keeps {pat rep q : List Char} {p0 q0 : Char}
    {pt qt : List Char} (hpat : pat = p0 :: pt) (hq : q = q0 :: qt)
    (h1 : ¬ pat <+: q) (h2 : ¬ q <+: pat) (h3 : q0 ∉ pt) (h4 : p0 ∉ qt) :
    ∀ s, q <:+: s → q <:+: replaceAll pat rep s := by
  intro s
  induction s using strongLengthInduction with
  | hP s ih =>
    cases s with
    | nil =>
      intro h
      rw [replaceAll_nil]
      exact h
    | cons c cs =>
      intro hin
      by_cases hpre : pat <+: c :: cs
      · obtain ⟨t, ht⟩ := hpre
        rw [replaceAll_cons_pos rep ⟨t, ht⟩ (by rw [hpat]; intro hc; cases hc)]
        have hnq : ¬ q <+: c :: cs := by
          intro hqp
          rcases List.prefix_or_prefix_of_prefix ⟨t, ht⟩ hqp with ha | hb
          · exact h1 ha
          · exact h2 hb
        have hsplit : c :: cs = p0 :: (pt ++ t) := by
          rw [← ht, hpat]
          rfl
        rw [hsplit] at hin
        rcases List.infix_cons_iff.mp hin with hx | hx
        · rw [← hsplit] at hx
          exact absurd hx hnq
        · rw [hq] at hx
          have hqt2 : (q0 :: qt) <:+: t := infix_append_head pt h3 hx
          have hqt : q <:+: t := by
            rw [hq]
            exact hqt2
          have hdrop : List.drop pat.length (c :: cs) = t := by
            rw [← ht, List.drop_left]
          rw [hdrop]
          have hlt : t.length < (c :: cs).length := by
            have hlen := congrArg List.length ht
            rw [hpat] at hlen
            simp only [List.length_append, List.length_cons] at hlen
            simp only [List.length_cons]
            omega
          exact (ih t hlt hqt).trans (List.suffix_append rep _).isInfix
      · rw [replaceAll_cons_neg rep hpre]
        rcases List.infix_cons_iff.mp hin with hx | hx
        · rw [hq] at hx
          obtain ⟨hq0, hqt⟩ := List.cons_prefix_cons.mp hx
          obtain ⟨rest, hrest⟩ := hqt
          rw [← hrest, hpat, replaceAll_skip qt h4]
          apply List.IsPrefix.isInfix
          rw [hq, ← hq0]
          exact List.cons_prefix_cons.mpr ⟨rfl, List.prefix_append _ _⟩
        · exact List.infix_cons_iff.mpr (Or.inr (ih cs (by simp) hx))

theorem runBatch_notFound_mem (w : String → FileCase) :
    ∀ ps p, p ∈ ps → w p = .absent →
      (p, Report.notFound) ∈ (runBatch w ps).reports := by
  intro ps
  induction ps with
  | nil => intro p hp _; exact absurd hp (List.not_mem_nil p)
  | cons p0 ps ih =>
    intro p hp hw
    rcases List.mem_cons.mp hp with rfl | hp2
    · rw [runBatch_cons_absent ps hw]
      exact List.mem_cons_self _ _
    · by_cases h0 : w p0 = .absent
      · rw [runBatch_cons_absent ps h0]
        exact List.mem_cons_of_mem _ (ih p hp2 hw)
      · rw [runBatch_cons_present ps h0]
        exact List.mem_cons_of_mem _ (ih p hp2 hw)

/-- Claim C1: for every content the Entity Fixer performs exactly the five
literal replacements in the fixed source order `&apos;`, `&quot;`, `&lt;`,
`&gt;`, `&amp;`, and the example content of the specification is transformed
into its expected decoding, with the file reported fixed. -/
theorem claim_C1 :
    (∀ s, fixContent s =
      replaceAll ampEnt ['&'] (replaceAll gtEnt ['>'] (replaceAll ltEnt ['<']
        (replaceAll quotEnt ['"'] (replaceAll aposEnt ['\''] s))))) ∧
    fixContent exampleInput = exampleOutput ∧
    fix_html_entities (FileCase.ok exampleInput false) =
      ⟨true, Report.fixed, true, some exampleOutput⟩ :=
  ⟨fixContent_eq, by decide, by decide⟩

/-- Claim C2: with a readable, writable file, the file is overwritten exactly
when the substituted content differs from the original; a differing content is
written back and reported fixed, an unchanged one is not written and reported
no change, and within one run over the script's path list any path is written
at most once. -/
theorem claim_C2 (w : String → FileCase) (p : String) (c : List Char)
    (hp : p ∈ files_to_fix) (hw : w p = FileCase.ok c false) :
    ((fix_html_entities (w p)).wrote = true ↔ fixContent c ≠ c) ∧
    (fixContent c ≠ c →
      fix_html_entities (w p) = ⟨true, Report.fixed, true, some (fixContent c)⟩) ∧
    (fixContent c = c →
      fix_html_entities (w p) = ⟨false, Report.noChange, false, some c⟩) ∧
    (runBatch w files_to_fix).writes.count p ≤ 1 := by
  refine ⟨?_, ?_, ?_, ?_⟩
  · rw [hw]
    by_cases hc : fixContent c = c
    · simp [fix_html_entities, hc]
    · simp [fix_html_entities, hc]
  · intro hc
    rw [hw]
    simp [fix_html_entities, hc]
  · intro hc
    rw [hw]
    simp [fix_html_entities, hc]
  · have h1 := runBatch_writes_count w p files_to_fix
    have h2 : files_to_fix.count p ≤ 1 :=
      List.nodup_iff_count_le_one.mp (by decide) p
    omega

/-- Witness for C2: a concrete world holding `&lt;` at the first listed path. -/
theorem claim_C2_wit :
    ((fix_html_entities (wOk firstPath)).wrote = true ↔ fixContent ltEnt ≠ ltEnt) ∧
    (fixContent ltEnt ≠ ltEnt →
      fix_html_entities (wOk firstPath) =
        ⟨true, Report.fixed, true, some (fixContent ltEnt)⟩) ∧
    (fixContent ltEnt = ltEnt →
      fix_html_entities (wOk firstPath) =
        ⟨false, Report.noChange, false, some ltEnt⟩) ∧
    (runBatch wOk files_to_fix).writes.count firstPath ≤ 1 :=
  claim_C2 wOk firstPath ltEnt (by decide) rfl

/-- Counterexample to claim C3 as stated: on the content `&amp;apos;` the
substitution pass is not idempotent, because decoding `&amp;` last produces a
fresh `&apos;` which a second pass then decodes further. -/
theorem claim_C3_cex :
    fixContent (fixContent cexInput) ≠ fixContent cexInput := by decide

/-- Claim C3 (amended): the substitution pass is idempotent on every content
in which no occurrence of `&amp;` is immediately followed by the tail of one
of the five entities (so the `&amp;` decoding cannot re-introduce an entity);
on such contents a second run leaves the file unchanged and reports it as
no change, returning `False` and so contributing 0 to the fixed count. -/
theorem claim_C3 (s : List Char) (h : noReintroduction s) :
    fixContent (fixContent s) = fixContent s ∧
    fix_html_entities (FileCase.ok (fixContent s) false) =
      ⟨false, Report.noChange, false, some (fixContent s)⟩ := by
  have hfix := fixContent_idem h
  exact ⟨hfix, by simp [fix_html_entities, hfix]⟩

/-- Witness for the amended C3 at the specification's example content. -/
theorem claim_C3_wit :
    fixContent (fixContent exampleInput) = fixContent exampleInput ∧
    fix_html_entities (FileCase.ok (fixContent exampleInput) false) =
      ⟨false, Report.noChange, false, some (fixContent exampleInput)⟩ :=
  claim_C3 exampleInput (by decide)

/-- Claim C4: if a content contains at least one of the five entities and no
occurrence of `&amp;` immediately followed by an entity tail (the formal
reading of the spec's no-re-introduction proviso), then after the pass none
of the five entity strings occurs and the file is reported fixed. -/
theorem claim_C4 (s : List Char) (h1 : ∃ e ∈ theEntities, e <:+: s)
    (h2 : noReintroduction s) :
    (∀ e ∈ theEntities, ¬ e <:+: fixContent s) ∧
    fix_html_entities (FileCase.ok s false) =
      ⟨true, Report.fixed, true, some (fixContent s)⟩ := by
  refine ⟨fixContent_noEntities h2, ?_⟩
  have hch := fixContent_changed h1
  simp [fix_html_entities, hch]

/-- Witness for C4 at the specification's example content. -/
theorem claim_C4_wit :
    (∀ e ∈ theEntities, ¬ e <:+: fixContent exampleInput) ∧
    fix_html_entities (FileCase.ok exampleInput false) =
      ⟨true, Report.fixed, true, some (fixContent exampleInput)⟩ :=
  claim_C4 exampleInput ⟨quotEnt, by decide, by decide⟩ (by decide)

/-- Claim C5: because `&amp;` is decoded last, a run never cascades: any
content containing `&amp;lt;` yields an output containing the literal `&lt;`,
which is not expanded further in the same run; and performing the `&amp;`
replacement first instead gives a different result on `&amp;lt;`, so the
listed order must be preserved. -/
theorem claim_C5 (s : List Char) (h : ampLt <:+: s) :
    ltEnt <:+: fixContent s ∧
    fixContent ampLt = ltEnt ∧
    fixContentAmpFirst ampLt ≠ fixContent ampLt := by
  refine ⟨?_, by decide, by decide⟩
  rw [fixContent_eq]
  have p1 : ampLt <:+: replaceAll aposEnt ['\''] s :=
    replaceAll_keeps (show aposEnt = '&' :: ['a', 'p', 'o', 's', ';'] from rfl)
      (show ampLt = '&' :: ['a', 'm', 'p', ';', 'l', 't', ';'] from rfl)
      (by decide) (by decide) (by decide) (by decide) s h
  have p2 : ampLt <:+: replaceAll quotEnt ['"'] (replaceAll aposEnt ['\''] s) :=
    replaceAll_keeps (show quotEnt = '&' :: ['q', 'u', 'o', 't', ';'] from rfl)
      (show ampLt = '&' :: ['a', 'm', 'p', ';', 'l', 't', ';'] from rfl)
      (by decide) (by decide) (by decide) (by decide) _ p1
  have p3 : ampLt <:+: replaceAll ltEnt ['<']
      (replaceAll quotEnt ['"'] (replaceAll aposEnt ['\''] s)) :=
    replaceAll_keeps (show ltEnt = '&' :: ['l', 't', ';'] from rfl)
      (show ampLt = '&' :: ['a', 'm', 'p', ';', 'l', 't', ';'] from rfl)
      (by decide) (by decide) (by decide) (by decide) _ p2
  have p4 : ampLt <:+: replaceAll gtEnt ['>'] (replaceAll ltEnt ['<']
      (replaceAll quotEnt ['"'] (replaceAll aposEnt ['\''] s))) :=
    replaceAll_keeps (show gtEnt = '&' :: ['g', 't', ';'] from rfl)
      (show ampLt = '&' :: ['a', 'm', 'p', ';', 'l', 't', ';'] from rfl)
      (by decide) (by decide) (by decide) (by decide) _ p3
  exact replaceAll_amp_ampLt _ p4

/-- Witness for C5 at the content `&amp;lt;` itself. -/
theorem claim_C5_wit :
    ltEnt <:+: fixContent ampLt ∧
    fixContent ampLt = ltEnt ∧
    fixContentAmpFirst ampLt ≠ fixContent ampLt :=
  claim_C5 ampLt (by decide)

/-- Claim C6: a listed path that does not exist is reported not found, the
fixer is never invoked on it (no read and no write occurs for it), and the
aggregate fixed count is the same as for the list without that path. -/
theorem claim_C6 (w : String → FileCase) (p : String) (l1 l2 : List String)
    (h : w p = FileCase.absent) :
    (runBatch w (l1 ++ p :: l2)).fixedCount =
      (runBatch w (l1 ++ l2)).fixedCount ∧
    (p, Report.notFound) ∈ (runBatch w (l1 ++ p :: l2)).reports ∧
    p ∉ (runBatch w (l1 ++ p :: l2)).reads ∧
    p ∉ (runBatch w (l1 ++ p :: l2)).writes :=
  ⟨runBatch_absent_count h l1 l2,
   runBatch_notFound_mem w _ p (by simp) h,
   (runBatch_absent_no_touch h _).1,
   (runBatch_absent_no_touch h _).2⟩

/-- Witness for C6: a world in which the first listed path is missing. -/
theorem claim_C6_wit :
    (runBatch wAbsent ([firstPath] : List String)).fixedCount =
      (runBatch wAbsent []).fixedCount ∧
    (firstPath, Report.notFound) ∈ (runBatch wAbsent [firstPath]).reports ∧
    firstPath ∉ (runBatch wAbsent [firstPath]).reads ∧
    firstPath ∉ (runBatch wAbsent [firstPath]).writes :=
  claim_C6 wAbsent firstPath [] [] rfl

/-- Claim C7: every error is caught inside the per-file fixer: in every world
the batch runs to completion and produces exactly one status line per listed
path in order, so the summary count is always reached; a path whose read
raises, or whose content changes but whose write raises, is reported as an
error with the fixer returning `False`, and all other paths are still
processed. -/
theorem claim_C7 (w : String → FileCase) (ps : List String) :
    ((runBatch w ps).reports.map Prod.fst = ps) ∧
    (∀ p, p ∈ ps → w p = FileCase.readError →
      (p, Report.error) ∈ (runBatch w ps).reports ∧
      (fix_html_entities (w p)).returned = false) ∧
    (∀ p c, p ∈ ps → w p = FileCase.ok c true → fixContent c ≠ c →
      (p, Report.error) ∈ (runBatch w ps).reports ∧
      (fix_html_entities (w p)).returned = false) := by
  refine ⟨runBatch_reports_paths w ps, ?_, ?_⟩
  · intro p hp hw
    have hne : w p ≠ .absent := by
      rw [hw]
      intro hc
      cases hc
    have h1 := runBatch_report_mem w ps p hp hne
    have hrep : (fix_html_entities (w p)).report = Report.error := by
      rw [hw]
      rfl
    rw [hrep] at h1
    refine ⟨h1, ?_⟩
    rw [hw]
    rfl
  · intro p c hp hw hc
    have hne : w p ≠ .absent := by
      rw [hw]
      intro hx
      cases hx
    have h1 := runBatch_report_mem w ps p hp hne
    have hrep : (fix_html_entities (w p)).report = Report.error := by
      rw [hw]
      simp [fix_html_entities, hc]
    rw [hrep] at h1
    refine ⟨h1, ?_⟩
    rw [hw]
    simp [fix_html_entities, hc]

/-- Witness for C7: a world in which reading the first listed path raises. -/
theorem claim_C7_wit :
    ((runBatch wErr files_to_fix).reports.map Prod.fst = files_to_fix) ∧
    ((firstPath, Report.error) ∈ (runBatch wErr files_to_fix).reports ∧
      (fix_html_entities (wErr firstPath)).returned = false) :=
  ⟨(claim_C7 wErr files_to_fix).1,
   (claim_C7 wErr files_to_fix).2.1 firstPath (by decide) (by decide)⟩

/-- Claim C8: `fix_html_entities` returns `True` exactly when the read
succeeded, the substituted content differed, and the write raised nothing;
the final fixed count is the number of listed paths for which the call
returned `True`; and an errored file is indistinguishable from a no-change
file in the return value, both yielding `False`. -/
theorem claim_C8 :
    (∀ fc, (fix_html_entities fc).returned = true ↔
      ∃ c, fc = FileCase.ok c false ∧ fixContent c ≠ c) ∧
    (∀ (w : String → FileCase) ps, (runBatch w ps).fixedCount =
      (ps.filter (fun p => (fix_html_entities (w p)).returned)).length) ∧
    (∀ c, (fix_html_entities (FileCase.ok c true)).returned = false) ∧
    (∀ c, fixContent c = c →
      (fix_html_entities (FileCase.ok c false)).returned = false) ∧
    (fix_html_entities FileCase.readError).returned = false := by
  refine ⟨?_, ?_, ?_, ?_, rfl⟩
  · intro fc
    match fc with
    | FileCase.absent => simp [fix_html_entities]
    | FileCase.readError => simp [fix_html_entities]
    | FileCase.ok c wf =>
      match wf with
      | true =>
        by_cases hc : fixContent c = c <;> simp [fix_html_entities, hc]
      | false =>
        by_cases hc : fixContent c = c
        · simp [fix_html_entities, hc]
        · simp only [fix_html_entities, if_pos hc, ne_eq]
          simp [hc]
  · exact runBatch_count_filter
  · intro c
    by_cases hc : fixContent c = c <;> simp [fix_html_entities, hc]
  · intro c hc
    simp [fix_html_entities, hc]

/-- Witness for C8 at a concrete file case and world. -/
theorem claim_C8_wit :
    ((fix_html_entities (FileCase.ok ltEnt false)).returned = true ↔
      ∃ c, FileCase.ok ltEnt false = FileCase.ok c false ∧ fixContent c ≠ c) ∧
    (runBatch wOk files_to_fix).fixedCount =
      (files_to_fix.filter (fun p => (fix_html_entities (wOk p)).returned)).length ∧
    (fix_html_entities (FileCase.ok ltEnt true)).returned = false :=
  ⟨claim_C8.1 (FileCase.ok ltEnt false),
   claim_C8.2.1 wOk files_to_fix,
   claim_C8.2.2.1 ltEnt⟩

/-- Claim C9: a content with no ampersand character is left unchanged by the
substitution pass, since all five entity strings start with an ampersand, so
the file is not written and is reported as needing no change. -/
theorem claim_C9 (s : List Char) (h : '&' ∉ s) :
    fixContent s = s ∧
    fix_html_entities (FileCase.ok s false) =
      ⟨false, Report.noChange, false, some s⟩ := by
  have hid : fixContent s = s := by
    apply fixContent_of_noEntity
    intro e he hx
    have hsub := hx.subset
    simp only [theEntities, List.mem_cons, List.not_mem_nil, or_false] at he
    rcases he with rfl | rfl | rfl | rfl | rfl <;>
      exact h (hsub (by decide))
  exact ⟨hid, by simp [fix_html_entities, hid]⟩

/-- Witness for C9 at a concrete ampersand-free content. -/
theorem claim_C9_wit :
    fixContent ['h', 'i'] = ['h', 'i'] ∧
    fix_html_entities (FileCase.ok ['h', 'i'] false) =
      ⟨false, Report.noChange, false, some ['h', 'i']⟩ :=
  claim_C9 ['h', 'i'] (by decide)

/-- Claim C10: the substitution pass never grows the content: each of the five
replacements substitutes one character for a strictly longer entity string, so
the output length is at most the input length for every content. -/
theorem claim_C10 : ∀ s, (fixContent s).length ≤ s.length :=
  fixContent_length_le
